import Mathlib

set_option maxRecDepth 8000

namespace Hecto

/-!
Shallow embedding of the hecto editor's buffer core (src/row.rs, src/document.rs,
src/filetype.rs, src/highlighting.rs).

A Rust String is modelled as a list of Unicode scalar values (code points).
Rust byte indices (String::find, String::len, grapheme_indices offsets) are
modelled at the scalar level through the per-scalar UTF-8 length: because UTF-8
is self-synchronizing, a valid encoded needle can only occur at scalar
boundaries of a valid encoded haystack, so first/last byte-offset occurrences
correspond one-to-one (and order-preservingly) to first/last scalar-offset
occurrences, and the byte offsets themselves are the cumulative UTF-8 lengths
used below where the source compares byte offsets.
-/

abbrev Str := List Nat

/-- Convenience: a Lean string literal as a list of code points. -/
def S (s : String) : Str := s.toList.map Char.toNat

/-- UTF-8 encoded length of one scalar. -/
def utf8CharLen (c : Nat) : Nat :=
  if c < 0x80 then 1 else if c < 0x800 then 2 else if c < 0x10000 then 3 else 4

/-- Rust String::len (UTF-8 byte count). -/
def utf8Len (s : Str) : Nat := (s.map utf8CharLen).sum

/-!
Model of the unicode-segmentation crate's extended grapheme clusters
(UnicodeSegmentation::graphemes(true), UAX #29), restricted to the character
classes the buffer operations exercise: plain scalars (each its own cluster),
combining marks U+0300..U+036F (Extend), the zero width joiner U+200D,
extended pictographics in U+1F300..U+1FAFF, and regional indicators
U+1F1E6..U+1F1FF.  Rules modelled: GB9 (no break before Extend/ZWJ),
GB11 (no break in pictographic ZWJ sequences), GB12/13 (regional indicators
pair up), GB999 (otherwise break).  The CR/LF/control rules are irrelevant
here since row text never holds line terminators.
-/

def isExtendU (c : Nat) : Bool := 0x300 ≤ c && c ≤ 0x36F

def isZWJ (c : Nat) : Bool := c == 0x200D

def isRegInd (c : Nat) : Bool := 0x1F1E6 ≤ c && c ≤ 0x1F1FF

def isExtPict (c : Nat) : Bool := 0x1F300 ≤ c && c ≤ 0x1FAFF

def dropTrailingExtend (cl : Str) : Str := (cl.reverse.dropWhile isExtendU).reverse

/-- Does the cluster so far match `ExtPict Extend* ZWJ` (the left side of GB11)? -/
def endsPictZWJ (cl : Str) : Bool :=
  match cl.getLast? with
  | some z =>
      isZWJ z &&
        (match (dropTrailingExtend cl.dropLast).getLast? with
         | some p => isExtPict p
         | none => false)
  | none => false

def trailingRI (cl : Str) : Nat := (cl.reverse.takeWhile isRegInd).length

/-- Does scalar c extend the current cluster cl (no grapheme break before c)? -/
def joinsCluster (cl : Str) (c : Nat) : Bool :=
  isExtendU c || isZWJ c || (isExtPict c && endsPictZWJ cl) ||
    (isRegInd c && trailingRI cl == 1)

def graphemesGo : Str → Str → List Str
  | cl, [] => [cl]
  | cl, c :: rest =>
      if joinsCluster cl c then graphemesGo (cl ++ [c]) rest
      else cl :: graphemesGo [c] rest

/-- str::graphemes(true): split a string into extended grapheme clusters. -/
def graphemes : Str → List Str
  | [] => []
  | c :: rest => graphemesGo [c] rest

/-! highlighting.rs -/

/-- highlighting::Type. -/
inductive HType where
  | Number
  | Str
  | Character
  | Comment
  | MultilineComment
  | PrimaryKeywords
  | SecondaryKeywords
  | Match
  | None
deriving DecidableEq, Repr, Inhabited

/-! filetype.rs -/

/-- HighlightingOptions. -/
structure HighlightingOptions where
  numbers : Bool := false
  strings : Bool := false
  characters : Bool := false
  comments : Bool := false
  multiline_comments : Bool := false
  primary_keywords : List (Str × Nat) := []
  secondary_keywords : List (Str × Nat) := []
deriving DecidableEq, Repr, Inhabited

/-- generate_keywords_len: pair each keyword with its byte length. -/
def generate_keywords_len (keywords : List Str) : List (Str × Nat) :=
  keywords.map (fun k => (k, utf8Len k))

/-- FileType. -/
structure FileType where
  name : Str
  hl_opts : HighlightingOptions
deriving DecidableEq, Repr

def FileType.default : FileType :=
  { name := S "No filetype", hl_opts := {} }

instance : Inhabited FileType := ⟨FileType.default⟩

/-- Suffix of the file name after the last dot (rsplit of '.' then next()). -/
def extOf : Str → Str
  | [] => []
  | c :: t => if 46 ∈ t then extOf t else if c = 46 then t else c :: t

def toLowerAscii (c : Nat) : Nat := if 65 ≤ c ∧ c ≤ 90 then c + 32 else c

/-- str::eq_ignore_ascii_case. -/
def eqIgnoreAsciiCase (a b : Str) : Bool :=
  a.map toLowerAscii = b.map toLowerAscii

def rustPrimaryKeywords : List Str :=
  [S "as", S "break", S "const", S "continue", S "crate", S "else", S "enum",
   S "extern", S "false", S "fn", S "for", S "if", S "impl", S "in", S "let",
   S "loop", S "match", S "mod", S "move", S "mut", S "pub", S "ref",
   S "return", S "self", S "Self", S "static", S "struct", S "super",
   S "trait", S "true", S "type", S "unsafe", S "use", S "where", S "while",
   S "dyn", S "abstract", S "become", S "box", S "do", S "final", S "macro",
   S "override", S "priv", S "typeof", S "unsized", S "virtual", S "yield",
   S "async", S "await", S "try"]

def rustSecondaryKeywords : List Str :=
  [S "bool", S "char", S "i8", S "i16", S "i32", S "i64", S "isize", S "u8",
   S "u16", S "u32", S "u64", S "usize", S "f32", S "f64"]

def rustOptions : HighlightingOptions :=
  { numbers := true
    strings := true
    characters := true
    comments := true
    multiline_comments := true
    primary_keywords := generate_keywords_len rustPrimaryKeywords
    secondary_keywords := generate_keywords_len rustSecondaryKeywords }

/-- FileType::from (from is a Lean keyword, hence fromName). -/
def FileType.fromName (file_name : Str) : FileType :=
  if eqIgnoreAsciiCase (extOf file_name) (S "rs") then
    { name := S "Rust", hl_opts := rustOptions }
  else FileType.default

/-! row.rs: the Row structure and its pure mutations. -/

/-- Row. -/
structure Row where
  string : Str
  highlighting : List HType
  is_highlighted : Bool
  len : Nat
deriving DecidableEq, Repr

def Row.default : Row := ⟨[], [], false, 0⟩

instance : Inhabited Row := ⟨Row.default⟩

/-- impl From for Row (from is a Lean keyword, hence fromStr). -/
def Row.fromStr (slice : Str) : Row :=
  { string := slice
    highlighting := []
    is_highlighted := false
    len := (graphemes slice).length }

/-- Row::insert's middle-of-line rebuild: walk the enumerated graphemes,
pushing c just before the grapheme whose index equals at_, then each grapheme
in order.  The counter argument is the enumeration index. -/
def insertBeforeGraphemeGo (c at_ : Nat) : Nat → List Str → Str
  | _, [] => []
  | i, g :: rest =>
      (if i = at_ then c :: g else g) ++ insertBeforeGraphemeGo c at_ (i + 1) rest

def insertBeforeGrapheme (gs : List Str) (at_ : Nat) (c : Nat) : Str :=
  insertBeforeGraphemeGo c at_ 0 gs

/-- Row::insert. -/
def Row.insert (r : Row) (at_ : Nat) (c : Nat) : Row :=
  let s :=
    if at_ ≥ r.len then r.string ++ [c]
    else insertBeforeGrapheme (graphemes r.string) at_ c
  -- conditional bump: bump the cached length only if the recount grew
  let l := if (graphemes s).length > r.len then r.len + 1 else r.len
  { r with string := s, len := l }

/-- Row::delete: rebuild from every grapheme whose enumeration index is not
at_, i.e. from the grapheme list with entry at_ erased. -/
def Row.delete (r : Row) (at_ : Nat) : Row :=
  if at_ ≥ r.len then r
  else
    { r with
      string := ((graphemes r.string).eraseIdx at_).flatten
      len := r.len - 1 }

/-- Row::append. -/
def Row.append (r new : Row) : Row :=
  { r with string := r.string ++ new.string, len := r.len + new.len }

/-- Row::split: keep graphemes with index < at_ in place, return the tail row.
The source computes the tail length as self.len - length with unchecked
subtraction; Nat subtraction matches it on every row whose cached length is
at least the live grapheme count (all rows the Row API can build). -/
def Row.split (r : Row) (at_ : Nat) : Row × Row :=
  let gs := graphemes r.string
  -- the loop keeps the graphemes with enumeration index < at_, i.e. the
  -- first at_ graphemes, counting them one by one into length
  let kept := gs.take at_
  let tail := gs.drop at_
  let length := kept.length
  (({ r with string := kept.flatten, len := length } : Row),
   ⟨tail.flatten, [], false, r.len - length⟩)

def Row.as_bytes (r : Row) : Str := r.string

def Row.get_string (r : Row) : Str := r.string

/-- is_separator. -/
def isAsciiPunct (c : Nat) : Bool :=
  (0x21 ≤ c && c ≤ 0x2F) || (0x3A ≤ c && c ≤ 0x40) ||
    (0x5B ≤ c && c ≤ 0x60) || (0x7B ≤ c && c ≤ 0x7E)

def isAsciiWhitespace (c : Nat) : Bool :=
  c == 0x20 || c == 0x09 || c == 0x0A || c == 0x0C || c == 0x0D

def is_separator (grapheme : Str) : Bool :=
  grapheme.any (fun c => isAsciiPunct c || isAsciiWhitespace c)

/-! Row::find.  str::find / str::rfind return the first / last byte offset of
an occurrence; as justified in the header these coincide (through cumulative
UTF-8 lengths) with the first / last scalar offset at which the needle is a
prefix of the remaining haystack, which is what occurrenceList captures. -/

inductive SearchDirection where
  | Forward
  | Backward
deriving DecidableEq, Repr

/-- All scalar offsets of s at which query occurs. -/
def occurrenceList (s query : Str) : List Nat :=
  (List.range (s.length + 1)).filter (fun i => query.isPrefixOf (s.drop i))

/-- str::find (first occurrence), at the scalar level. -/
def strFind (s query : Str) : Option Nat := (occurrenceList s query).head?

/-- str::rfind (last occurrence), at the scalar level. -/
def strRfind (s query : Str) : Option Nat := (occurrenceList s query).getLast?

/-- The conversion loop of Row::find: walk grapheme_indices(true) and return
the index of the grapheme whose (scalar) offset equals the match offset, if
the offset is a grapheme boundary. -/
def graphemeIndexOfOffset : List Str → Nat → Option Nat
  | [], _ => none
  | g :: rest, t =>
      if t = 0 then some 0
      else if t < g.length then none
      else (graphemeIndexOfOffset rest (t - g.length)).map (· + 1)

/-- Row::find.  The source computes end - start with unchecked (release:
wrapping) subtraction; a forward search from a column beyond the cached
length wraps, but skip(start) has already emptied the iterator, so the
result is none either way and Nat (truncating) subtraction is faithful. -/
def Row.find (r : Row) (query : Str) (at_ : Nat) (direction : SearchDirection) :
    Option Nat :=
  if query = [] then none
  else
    let start := if direction = .Forward then at_ else 0
    let stop := if direction = .Forward then r.len else at_
    let sub := ((graphemes r.string).drop start).take (stop - start)
    let substring := sub.flatten
    let matching := if direction = .Forward then strFind substring query
                    else strRfind substring query
    match matching with
    | some off =>
        match graphemeIndexOfOffset sub off with
        | some gi => some (start + gi)
        | none => none
    | none => none

/-! Row::render.  The produced display string is modelled as a list of items,
separating the pushed characters from the pushed color escape sequences. -/

inductive RItem where
  | chr (c : Nat)
  | color (t : HType)
  | reset
deriving DecidableEq, Repr

/-- The render loop body: for each (absolute index, grapheme) of the window,
if the grapheme has a first scalar, emit a color item when its highlight
category differs from the current one, then the first scalar (tab as space). -/
def renderLoop (hl : List HType) : List (Nat × Str) → HType → List RItem
  | [], _ => []
  | (i, g) :: rest, cur =>
      match g.head? with
      | none => renderLoop hl rest cur
      | some c =>
          let t := hl.getD i HType.None
          (if t = cur then [] else [RItem.color t]) ++
            (RItem.chr (if c = 9 then 32 else c) :: renderLoop hl rest t)

/-- Row::render: the end bound is clamped by self.string.len() (the byte
length), the start bound by the clamped end; the loop runs over the
enumerated graphemes, skip(start).take(end - start). -/
def Row.render (r : Row) (start stop : Nat) : List RItem :=
  let stop2 := min stop (utf8Len r.string)
  let start2 := min start stop2
  let window := ((graphemes r.string).enum.drop start2).take (stop2 - start2)
  renderLoop r.highlighting window HType.None ++ [RItem.reset]

/-- The characters of a rendered string, color sequences ignored. -/
def renderChars (out : List RItem) : Str :=
  out.filterMap (fun i => match i with | RItem.chr c => some c | _ => none)

/-! The Row::highlight sub-highlighters.  Each Rust helper mutates
self.highlighting (only by pushing) and *index, and reports whether it fired;
the model passes the accumulated marks and the index explicitly and returns
none when the helper reports false (in which case the source pushes nothing
and leaves the index unchanged). -/

/-- Row::highlight_str: compare the substring's graphemes against the row's
graphemes from index on; on success push substring.len() (byte length) marks,
advancing the index with each push. -/
def matchesAt (gs : List Str) (i : Nat) : List Str → Bool
  | [] => true
  | g :: rest =>
      match gs.get? i with
      | some g2 => g2 = g && matchesAt gs (i + 1) rest
      | none => false

def highlight_str (hl : List HType) (index : Nat) (substring : Str)
    (gs : List Str) (t : HType) : Option (List HType × Nat) :=
  if substring = [] then none
  else if matchesAt gs index (graphemes substring) then
    some (hl ++ List.replicate (utf8Len substring) t, index + utf8Len substring)
  else none

/-- The keyword loop of Row::highlight_keywords: skip a keyword whose
following grapheme is a non-separator (checked only while
index < len - word_len, with saturating subtraction), else try highlight_str. -/
def keywordLoop (rlen : Nat) (hl : List HType) (index : Nat) (gs : List Str)
    (t : HType) : List (Str × Nat) → Option (List HType × Nat)
  | [] => none
  | (w, wlen) :: rest =>
      if decide (index < rlen - wlen) &&
          (match gs.get? (index + wlen) with
           | some ng => ! is_separator ng
           | none => false) then
        keywordLoop rlen hl index gs t rest
      else
        match highlight_str hl index w gs t with
        | some res => some res
        | none => keywordLoop rlen hl index gs t rest

/-- Row::highlight_keywords: refuse when the previous grapheme exists and is
not a separator, else run the keyword loop. -/
def highlight_keywords (rlen : Nat) (hl : List HType) (index : Nat)
    (gs : List Str) (keywords : List (Str × Nat)) (t : HType) :
    Option (List HType × Nat) :=
  if decide (index > 0) &&
      (match gs.get? (index - 1) with
       | some pg => ! is_separator pg
       | none => false) then none
  else keywordLoop rlen hl index gs t keywords

/-- Row::highlight_char. -/
def highlight_char (opts : HighlightingOptions) (hl : List HType) (index : Nat)
    (grapheme : Str) (gs : List Str) : Option (List HType × Nat) :=
  if opts.characters && grapheme.any (· == 39) then
    match gs.get? (index + 1) with
    | some ng =>
        let closing := if ng.any (· == 92) then index + 3 else index + 2
        match gs.get? closing with
        | some cg =>
            if cg.any (· == 39) then
              some (hl ++ List.replicate (closing - index + 1) HType.Character,
                index + (closing - index + 1))
            else none
        | none => none
    | none => none
  else none

/-- Row::highlight_comment: marks from index to self.len() (cached). -/
def highlight_comment (opts : HighlightingOptions) (rlen : Nat)
    (hl : List HType) (index : Nat) (grapheme : Str) (gs : List Str) :
    Option (List HType × Nat) :=
  if opts.comments && grapheme.any (· == 47) then
    match gs.get? (index + 1) with
    | some ng =>
        if ng.any (· == 47) then
          some (hl ++ List.replicate (rlen - index) HType.Comment,
            index + (rlen - index))
        else none
    | none => none
  else none

/-- The closing-scan of highlight_multiline_comment: the first j at or after
start with a star in gs[j] and a slash in gs[j+1]. -/
def findCloseFrom (gs : List Str) (start : Nat) : Option Nat :=
  ((List.range gs.length).filter (fun j =>
      decide (start ≤ j) &&
        (match gs.get? j, gs.get? (j + 1) with
         | some a, some b => a.any (· == 42) && b.any (· == 47)
         | _, _ => false))).head?

/-- Row::highlight_multiline_comment.  Returns ((is_present, carried-out
state), (marks, index)).  When carried-in state is set, the index first jumps
to self.len() and the scan for a closing star-slash starts from grapheme 0. -/
def highlight_multiline_comment (opts : HighlightingOptions) (rlen : Nat)
    (hl : List HType) (index : Nat) (swc : Bool) (grapheme : Str)
    (gs : List Str) : (Bool × Bool) × (List HType × Nat) :=
  if swc then
    let (index2, swc2) :=
      match findCloseFrom gs 0 with
      | some j => (j + 2, false)
      | none => (rlen, true)
    ((true, swc2), (hl ++ List.replicate index2 HType.MultilineComment, index2))
  else
    if opts.multiline_comments && grapheme.any (· == 47) &&
        (match gs.get? (index + 1) with
         | some ng => ng.any (· == 42)
         | none => false) then
      let (closing, swc2) :=
        match findCloseFrom gs (index + 2) with
        | some j => (j + 2, false)
        | none => (rlen, true)
      ((true, swc2),
        (hl ++ List.replicate (closing - index) HType.MultilineComment, closing))
    else ((false, false), (hl, index))

/-- The string-literal loop of Row::highlight_string, with fuel for the
while-let loop (each pass advances the index by at least one, so
gs.length + 2 passes always suffice). -/
def stringLoop (gs : List Str) : Nat → List HType → Nat → List HType × Nat
  | 0, hl, index => (hl, index)
  | fuel + 1, hl, index =>
      let hl := hl ++ [HType.Str]
      let index := index + 1
      match gs.get? index with
      | some ng =>
          if ng.any (· == 92) then
            stringLoop gs fuel (hl ++ [HType.Str]) (index + 1)
          else if ng.any (· == 34) then (hl, index)
          else stringLoop gs fuel hl index
      | none => (hl, index)

/-- Row::highlight_string. -/
def highlight_string (opts : HighlightingOptions) (hl : List HType)
    (index : Nat) (grapheme : Str) (gs : List Str) :
    Option (List HType × Nat) :=
  if opts.strings && grapheme.any (· == 34) then
    let (hl2, index2) := stringLoop gs (gs.length + 2) hl index
    some (hl2 ++ [HType.Str], index2 + 1)
  else none

/-- The digit loop of Row::highlight_number (fuel as for stringLoop). -/
def numberLoop (gs : List Str) : Nat → List HType → Nat → List HType × Nat
  | 0, hl, index => (hl, index)
  | fuel + 1, hl, index =>
      let hl := hl ++ [HType.Number]
      let index := index + 1
      match gs.get? index with
      | some ng =>
          if ng.any (fun c => c ≠ 46 && ! (48 ≤ c && c ≤ 57)) then (hl, index)
          else numberLoop gs fuel hl index
      | none => (hl, index)

/-- Row::highlight_number. -/
def highlight_number (opts : HighlightingOptions) (hl : List HType)
    (index : Nat) (grapheme : Str) (gs : List Str) :
    Option (List HType × Nat) :=
  if opts.numbers && grapheme.any (fun c => 48 ≤ c && c ≤ 57) then
    if decide (index > 0) &&
        (match gs.get? (index - 1) with
         | some pg => ! is_separator pg
         | none => false) then none
    else some (numberLoop gs (gs.length + 2) hl index)
  else none

/-- One pass of the tokenizing while-loop of Row::highlight at the current
grapheme: the multiline-comment helper first (its second result always
replaces start_with_comment), then the ordered alternatives, else a None mark
and an index step of one. -/
def highlightStep (opts : HighlightingOptions) (rlen : Nat) (hl : List HType)
    (index : Nat) (swc : Bool) (grapheme : Str) (gs : List Str) :
    List HType × Nat × Bool :=
  let ((present, swc2), (hl2, index2)) :=
    highlight_multiline_comment opts rlen hl index swc grapheme gs
  if present then (hl2, index2, swc2)
  else
    match highlight_char opts hl index grapheme gs <|>
        highlight_comment opts rlen hl index grapheme gs <|>
        highlight_keywords rlen hl index gs opts.primary_keywords
          HType.PrimaryKeywords <|>
        highlight_keywords rlen hl index gs opts.secondary_keywords
          HType.SecondaryKeywords <|>
        highlight_string opts hl index grapheme gs <|>
        highlight_number opts hl index grapheme gs with
    | some (hl2, index2) => (hl2, index2, false)
    | none => (hl ++ [HType.None], index + 1, false)

/-- The tokenizing while-loop of Row::highlight, with fuel.  For every row
whose cached length is at least the live grapheme count (all rows the API can
build) each pass advances the index by at least one, so gs.length + 1 passes
suffice. -/
def highlightLoop (opts : HighlightingOptions) (rlen : Nat) (gs : List Str) :
    Nat → List HType → Nat → Bool → List HType × Bool
  | 0, hl, _, swc => (hl, swc)
  | fuel + 1, hl, index, swc =>
      match gs.get? index with
      | none => (hl, swc)
      | some grapheme =>
          let (hl2, index2, swc2) :=
            highlightStep opts rlen hl index swc grapheme gs
          highlightLoop opts rlen gs fuel hl2 index2 swc2

/-- The search-overlay loop of Row::highlight_match, with fuel (each found
match advances the scan index by at least one grapheme of the non-empty
word).  The source writes self.highlighting[i] with direct indexing; List.set
is its panic-free counterpart and the indices stay in range for the rows
highlighted here. -/
def matchLoop (r : Row) (w : Str) : Nat → List HType → Nat → List HType
  | 0, hl, _ => hl
  | fuel + 1, hl, index =>
      match Row.find { r with highlighting := hl } w index .Forward with
      | some m =>
          let nxt := m + (graphemes w).length
          let hl2 := (List.range hl.length).foldl
            (fun acc i => if m ≤ i ∧ i < nxt then acc.set i HType.Match else acc)
            hl
          matchLoop r w fuel hl2 nxt
      | none => hl

/-- Row::highlight_match. -/
def Row.highlight_match (r : Row) (word : Option Str) : Row :=
  match word with
  | some w =>
      if w = [] then r
      else { r with highlighting := matchLoop r w (r.len + 2) r.highlighting 0 }
  | none => r

/-- The early-return value of Row::highlight's skip path: still inside an
open multiline comment iff the last mark is MultilineComment, the row has
more than one grapheme, and the row does not end in star-slash. -/
def skipPathResult (r : Row) (gs : List Str) (t : HType) : Bool :=
  t = HType.MultilineComment && decide (r.len > 1) &&
    (match gs.get? (r.len - 2) with
     | some ga =>
         if ga.any (· == 42) then
           match gs.get? (r.len - 1) with
           | some gsl => ! gsl.any (· == 47)
           | none => true
         else true
     | none => true)

/-- Row::highlight.  Returns the updated row and the carried-out
block-comment state. -/
def Row.highlight (r : Row) (opts : HighlightingOptions) (word : Option Str)
    (swc : Bool) : Row × Bool :=
  let gs := graphemes r.string
  if r.is_highlighted ∧ word = none ∧ r.highlighting.getLast?.isSome then
    (r, skipPathResult r gs (r.highlighting.getLast?.getD HType.None))
  else
    let (hl, swcOut) := highlightLoop opts r.len gs (gs.length + 1) [] 0 swc
    (Row.highlight_match { r with highlighting := hl, is_highlighted := true }
        word,
      swcOut)

/-! document.rs -/

/-- Position (defined in editor.rs). -/
structure Position where
  x : Nat
  y : Nat
deriving DecidableEq, Repr

/-- Document. -/
structure Document where
  rows : List Row
  file_name : Option Str
  dirty : Bool
  file_type : FileType
deriving DecidableEq, Repr

def Document.default : Document :=
  { rows := [], file_name := none, dirty := false, file_type := FileType.default }

/-- Document::row. -/
def Document.row (d : Document) (index : Nat) : Option Row := d.rows.get? index

/-- Document::row_len. -/
def Document.row_len (d : Document) (y : Nat) : Nat :=
  match d.row y with
  | some r => r.len
  | none => 0

/-- Document::is_empty. -/
def Document.is_empty (d : Document) : Bool := d.rows.isEmpty

/-- Document::len. -/
def Document.len (d : Document) : Nat := d.rows.length

/-- Document::unhighlight_rows: clear is_highlighted from start - 1
(saturating) on. -/
def unhighlight_rows (rows : List Row) (start : Nat) : List Row :=
  rows.enum.map (fun p =>
    if start - 1 ≤ p.1 then { p.2 with is_highlighted := false } else p.2)

/-- Document::insert_newline.  The none result models the panic of the direct
indexing self.rows[at.y] when the row index is out of bounds of a non-empty
document. -/
def Document.insert_newline (d : Document) (at_ : Position) :
    Option Document :=
  if d.rows = [] then
    some { d with rows := [Row.default, Row.default] }
  else
    match d.rows.get? at_.y with
    | some current_row =>
        let (left, new_row) := Row.split current_row at_.x
        some { d with
          rows := ((d.rows.set at_.y left).insertIdx (at_.y + 1) new_row) }
    | none => none

/-- Document::insert.  dirty is set first in the source; a panicking path
(none) tears the process down, so only the defined results carry it. -/
def Document.insert (d : Document) (at_ : Position) (c : Nat) :
    Option Document :=
  let d2 :=
    if c = 10 then
      Document.insert_newline { d with dirty := true } at_
    else if d.rows = [] then
      some { d with dirty := true, rows := [Row.insert Row.default 0 c] }
    else
      match d.rows.get? at_.y with
      | some row =>
          some { d with dirty := true,
                        rows := d.rows.set at_.y (Row.insert row at_.x c) }
      | none => none
  d2.map (fun d3 => { d3 with rows := unhighlight_rows d3.rows at_.y })

/-- Document::delete.  none models the panic of self.rows[at.y] on the
character-delete path when the row index is out of bounds. -/
def Document.delete (d : Document) (at_ : Position) : Option Document :=
  if d.rows = [] ∨ (at_.x = d.row_len at_.y ∧ d.rows.get? (at_.y + 1) = none)
  then some d
  else
    let d2 :=
      if at_.x = d.row_len at_.y ∧ at_.y + 1 < d.rows.length then
        match d.rows.get? at_.y, d.rows.get? (at_.y + 1) with
        | some row, some next_row =>
            some { d with dirty := true,
                          rows := (d.rows.eraseIdx (at_.y + 1)).set at_.y
                            (Row.append row next_row) }
        | _, _ => none
      else
        match d.rows.get? at_.y with
        | some row =>
            some { d with dirty := true,
                          rows := d.rows.set at_.y (Row.delete row at_.x) }
        | none => none
    d2.map (fun d3 => { d3 with rows := unhighlight_rows d3.rows at_.y })

/-- The row loop of Document::find, with the remaining iteration count of
for _ in start..end as the recursion measure.  On the backward wrap the
source indexes self.rows[position.y] after the saturating decrement; that
index is always in range there (the row just probed exists), so the getD
default is never taken. -/
def docFindLoop (rows : List Row) (query : Str) (direction : SearchDirection) :
    Nat → Position → Option Position
  | 0, _ => none
  | n + 1, pos =>
      match rows.get? pos.y with
      | some row =>
          match Row.find row query pos.x direction with
          | some x => some ⟨x, pos.y⟩
          | none =>
              if direction = .Forward then
                docFindLoop rows query direction n ⟨0, pos.y + 1⟩
              else
                docFindLoop rows query direction n
                  ⟨(rows.getD (pos.y - 1) Row.default).len, pos.y - 1⟩
      | none => none

/-- Document::find. -/
def Document.find (d : Document) (query : Str) (at_ : Position)
    (direction : SearchDirection) : Option Position :=
  let start := if direction = .Forward then at_.y else 0
  let stop := if direction = .Forward then d.rows.length else at_.y + 1
  docFindLoop d.rows query direction (stop - start) at_

/-- The row loop of Document::highlight, threading the block-comment state. -/
def processRows (opts : HighlightingOptions) (word : Option Str) :
    Bool → List Row → List Row × Bool
  | swc, [] => ([], swc)
  | swc, r :: rest =>
      let (r2, swc2) := Row.highlight r opts word swc
      let (rest2, swcOut) := processRows opts word swc2 rest
      (r2 :: rest2, swcOut)

/-- Document::highlight. -/
def Document.highlight (d : Document) (word : Option Str)
    (until_ : Option Nat) : Document :=
  let u :=
    match until_ with
    | some u => if u + 1 < d.rows.length then u + 1 else d.rows.length
    | none => d.rows.length
  { d with rows :=
      (processRows d.file_type.hl_opts word false (d.rows.take u)).1 ++
        d.rows.drop u }

/-! Model of the file-system boundary of document.rs.  open and save are
modelled on their success path: the file content read or written is passed in
or returned explicitly, and the I/O failures of fs::read_to_string,
fs::File::create and write_all are external nondeterminism that leaves the
in-memory document untouched. -/

/-- str::split at a line feed, keeping empty pieces. -/
def splitNl : Str → List Str
  | [] => [[]]
  | c :: t =>
      if c = 10 then [] :: splitNl t
      else
        match splitNl t with
        | [] => [[c]]
        | h :: r => (c :: h) :: r

/-- Strip one trailing carriage return. -/
def stripCR (l : Str) : Str := if l.getLast? = some 13 then l.dropLast else l

/-- str::lines: split at line feeds, an optional final terminator yields no
extra piece, and a carriage return just before each line feed is removed. -/
def rustLines (s : Str) : List Str :=
  if s = [] then []
  else if s.getLast? = some 10 then ((splitNl s).dropLast).map stripCR
  else ((splitNl s).dropLast).map stripCR ++ [(splitNl s).getLast?.getD []]

/-- The row texts joined by a single line feed, as written by the save loop
(a newline after every row except the last). -/
def joinNl : List Str → Str
  | [] => []
  | [l] => l
  | l :: r => l ++ 10 :: joinNl r

/-- Document::open on the success path: filename and the file's content. -/
def Document.openDoc (filename contents : Str) : Document :=
  { rows :=
      (rustLines contents ++
        if contents.getLast? = some 10 then [[]] else []).map Row.fromStr
    file_name := some filename
    dirty := false
    file_type := FileType.fromName filename }

/-- Document::save on the success path: the content written (none when there
is no file name and nothing at all is written) and the updated document. -/
def Document.save (d : Document) : Option Str × Document :=
  match d.file_name with
  | some file_name =>
      (some (joinNl (d.rows.map Row.string)),
        { d with file_type := FileType.fromName file_name, dirty := false })
  | none => (none, d)

/-- Document::is_dirty. -/
def Document.is_dirty (d : Document) : Bool := d.dirty

/-! Basic facts about the segmentation model. -/

theorem graphemesGo_flatten (s : Str) :
    ∀ cl, (graphemesGo cl s).flatten = cl ++ s := by
  induction s with
  | nil => intro cl; simp [graphemesGo]
  | cons c rest ih =>
      intro cl
      simp only [graphemesGo]
      split
      · rw [ih]; simp
      · rw [List.flatten_cons, ih [c]]; simp

/-- The clusters reassemble the string. -/
theorem graphemes_flatten (s : Str) : (graphemes s).flatten = s := by
  cases s with
  | nil => rfl
  | cons c rest => simpa using graphemesGo_flatten rest [c]

theorem graphemesGo_ne_nil (s : Str) :
    ∀ cl, cl ≠ [] → ∀ g ∈ graphemesGo cl s, g ≠ [] := by
  induction s with
  | nil =>
      intro cl hcl g hg
      simp [graphemesGo] at hg
      simpa [hg] using hcl
  | cons c rest ih =>
      intro cl hcl g hg
      simp only [graphemesGo] at hg
      split at hg
      · exact ih (cl ++ [c]) (by simp) g hg
      · rcases List.mem_cons.mp hg with h | h
        · simpa [h] using hcl
        · exact ih [c] (by simp) g h

/-- Clusters are never empty. -/
theorem graphemes_ne_nil (s : Str) : ∀ g ∈ graphemes s, g ≠ [] := by
  cases s with
  | nil => intro g hg; simp [graphemes] at hg
  | cons c rest => exact graphemesGo_ne_nil rest [c] (by simp)

theorem length_le_flatten_length (l : List Str) (h : ∀ g ∈ l, g ≠ []) :
    l.length ≤ l.flatten.length := by
  induction l with
  | nil => simp
  | cons g rest ih =>
      have hg : g ≠ [] := h g (by simp)
      have hrest := ih (fun x hx => h x (List.mem_cons_of_mem _ hx))
      have : 1 ≤ g.length := List.length_pos.mpr hg
      simp only [List.flatten_cons, List.length_cons, List.length_append]
      omega

/-- There are at most as many clusters as scalars. -/
theorem graphemes_length_le (s : Str) : (graphemes s).length ≤ s.length := by
  have h := length_le_flatten_length (graphemes s) (graphemes_ne_nil s)
  rwa [graphemes_flatten] at h

theorem length_le_utf8Len (s : Str) : s.length ≤ utf8Len s := by
  induction s with
  | nil => simp [utf8Len]
  | cons c rest ih =>
      have : 1 ≤ utf8CharLen c := by unfold utf8CharLen; split <;> try split
                                     all_goals first | omega | (split <;> omega)
      simp only [utf8Len, List.map_cons, List.sum_cons, List.length_cons]
      simp only [utf8Len] at ih
      omega

/-- There are at most as many clusters as encoded bytes. -/
theorem graphemes_length_le_utf8Len (s : Str) :
    (graphemes s).length ≤ utf8Len s :=
  le_trans (graphemes_length_le s) (length_le_utf8Len s)

/-! Scalars that neither extend a cluster nor can be extended across:
no combining mark, no zero width joiner, no regional indicator.  A string of
such scalars segments into singleton clusters. -/

def solo (c : Nat) : Bool := !(isExtendU c || isZWJ c || isRegInd c)

theorem endsPictZWJ_solo (cl : Str) (hcl : ∀ x ∈ cl, solo x = true) :
    endsPictZWJ cl = false := by
  unfold endsPictZWJ
  cases h : cl.getLast? with
  | none => rfl
  | some z =>
      have hz : z ∈ cl := by
        obtain ⟨hne, hzz⟩ :=
          List.mem_getLast?_eq_getLast (l := cl) (x := z)
            (by simp [Option.mem_def, h])
        exact hzz ▸ List.getLast_mem hne
      have hs := hcl z hz
      simp only [solo, Bool.not_eq_true', Bool.or_eq_false_iff] at hs
      simp [hs.1.2]

theorem joinsCluster_solo (cl : Str) (c : Nat)
    (hcl : ∀ x ∈ cl, solo x = true) (hc : solo c = true) :
    joinsCluster cl c = false := by
  have h1 := endsPictZWJ_solo cl hcl
  simp only [solo, Bool.not_eq_true', Bool.or_eq_false_iff] at hc
  simp [joinsCluster, hc.1.1, hc.1.2, hc.2, h1]


theorem graphemesGo_solo (s : Str) :
    ∀ cl, (∀ x ∈ cl, solo x = true) → (∀ x ∈ s, solo x = true) →
      graphemesGo cl s = cl :: s.map (fun c => [c]) := by
  induction s with
  | nil => intro cl _ _; simp [graphemesGo]
  | cons c rest ih =>
      intro cl hcl hs
      have hc : solo c = true := hs c (by simp)
      have hrest : ∀ x ∈ rest, solo x = true :=
        fun x hx => hs x (List.mem_cons_of_mem _ hx)
      simp only [graphemesGo, joinsCluster_solo cl c hcl hc, if_neg]
      rw [ih [c] (by simpa using hc) hrest]
      simp

/-- A string of solo scalars has one cluster per scalar. -/
theorem graphemes_solo (s : Str) (h : ∀ x ∈ s, solo x = true) :
    graphemes s = s.map (fun c => [c]) := by
  cases s with
  | nil => rfl
  | cons c rest =>
      have hc : solo c = true := h c (by simp)
      have hrest : ∀ x ∈ rest, solo x = true :=
        fun x hx => h x (List.mem_cons_of_mem _ hx)
      simp [graphemes, graphemesGo_solo rest [c] (by simpa using hc) hrest]

theorem flatten_map_singleton (l : Str) :
    (l.map (fun c => [c])).flatten = l := by
  induction l with
  | nil => rfl
  | cons c rest ih => simp [ih]

theorem graphemes_solo_length (s : Str) (h : ∀ x ∈ s, solo x = true) :
    (graphemes s).length = s.length := by
  rw [graphemes_solo s h, List.length_map]

theorem eraseIdx_map (f : Nat → Str) (l : Str) :
    ∀ n, (l.map f).eraseIdx n = (l.eraseIdx n).map f := by
  induction l with
  | nil => intro n; simp
  | cons c rest ih =>
      intro n
      cases n with
      | zero => simp
      | succ m => simp [List.eraseIdx_cons_succ, ih m]

theorem insertBeforeGraphemeGo_length (c at_ : Nat) (gs : List Str) :
    ∀ i, (insertBeforeGraphemeGo c at_ i gs).length =
      gs.flatten.length + (if i ≤ at_ ∧ at_ < i + gs.length then 1 else 0) := by
  induction gs with
  | nil =>
      intro i
      have h0 : ¬ (i ≤ at_ ∧ at_ < i) := by omega
      simp [insertBeforeGraphemeGo, h0]
  | cons g rest ih =>
      intro i
      simp only [insertBeforeGraphemeGo, List.length_append, List.flatten_cons,
        List.length_cons]
      rw [ih (i + 1)]
      split_ifs <;> simp_all [List.length_append] <;> omega

theorem insertBeforeGraphemeGo_mem (c at_ : Nat) (gs : List Str) :
    ∀ i x, x ∈ insertBeforeGraphemeGo c at_ i gs → x = c ∨ x ∈ gs.flatten := by
  induction gs with
  | nil => intro i x hx; simp [insertBeforeGraphemeGo] at hx
  | cons g rest ih =>
      intro i x hx
      simp only [insertBeforeGraphemeGo, List.mem_append] at hx
      rcases hx with hx | hx
      · split at hx
        · rcases List.mem_cons.mp hx with h | h
          · exact Or.inl h
          · exact Or.inr (by simp [h])
        · exact Or.inr (by simp [hx])
      · rcases ih (i + 1) x hx with h | h
        · exact Or.inl h
        · exact Or.inr (by simp [h])

/-! Concrete rows and documents used by the claim theorems and witnesses. -/

def rsName : Str := S "t.rs"

def mkDoc (ls : List Str) : Document :=
  { rows := ls.map Row.fromStr
    file_name := some rsName
    dirty := false
    file_type := FileType.fromName rsName }

def docComment : Document :=
  mkDoc [S "/* start", S "middle", S "end */", S "after"]

def docABC : Document := mkDoc [S "a", S "b", S "c"]

def docAB : Document := mkDoc [S "ab"]

def docA : Document := mkDoc [S "a"]

def docNoName : Document :=
  { rows := [Row.fromStr (S "a")]
    file_name := none
    dirty := true
    file_type := FileType.default }

/-- Two woman emoji: two clusters; a zero width joiner inserted between them
fuses them into a single cluster. -/
def womanPair : Str := [0x1F469, 0x1F469]

/-- Claim C2, counterexample: inserting the zero width joiner U+200D at
grapheme position 1 of a row holding two woman emoji merges the two clusters
into one; Row::insert only bumps its cached length when the recount grew
(row.rs line 93), so the cache stays at 2 while the live recount is 1 — the
cached length does not equal the live recount after this mutation, and insert
does not recompute the length by full re-segmentation. -/
theorem insert_zwj_cache_drifts :
    ((Row.fromStr womanPair).insert 1 0x200D).len = 2 ∧
      (graphemes ((Row.fromStr womanPair).insert 1 0x200D).string).length = 1 := by
  decide

/-- Claim C2 (amended): for rows, inserted scalars and appended rows made of
scalars that never merge clusters (no combining mark, no zero width joiner,
no regional indicator), each Row mutation — insert at any position, delete,
split (both halves), append — keeps the cached length equal to the live
grapheme recount of the text; by induction the invariant then holds along
every such mutation sequence.  (Insert updates the cache from a full recount,
incrementing only when the recount grew, so a cluster-merging insert leaves
the cache one above the recount, as the counterexample shows.) -/
theorem row_mutations_preserve_len_recount (r other : Row) (at_ c : Nat)
    (hr : ∀ x ∈ r.string, solo x = true) (hc : solo c = true)
    (ho : ∀ x ∈ other.string, solo x = true)
    (h : r.len = (graphemes r.string).length)
    (h2 : other.len = (graphemes other.string).length) :
    (r.insert at_ c).len = (graphemes (r.insert at_ c).string).length ∧
    (r.delete at_).len = (graphemes (r.delete at_).string).length ∧
    ((r.split at_).1.len = (graphemes (r.split at_).1.string).length ∧
      (r.split at_).2.len = (graphemes (r.split at_).2.string).length) ∧
    (r.append other).len = (graphemes (r.append other).string).length := by
  have hlen : r.len = r.string.length := by rw [h, graphemes_solo_length _ hr]
  have holen : other.len = other.string.length := by
    rw [h2, graphemes_solo_length _ ho]
  refine ⟨?_, ?_, ⟨?_, ?_⟩, ?_⟩
  · -- insert
    by_cases hat : at_ ≥ r.len
    · have hsolo2 : ∀ x ∈ r.string ++ [c], solo x = true := by
        intro x hx
        rcases List.mem_append.mp hx with hx | hx
        · exact hr x hx
        · simp only [List.mem_singleton] at hx; subst hx; exact hc
      have hg2 : (graphemes (r.string ++ [c])).length = r.string.length + 1 := by
        rw [graphemes_solo_length _ hsolo2]; simp
      simp only [Row.insert, if_pos hat]
      rw [hg2, if_pos (by omega)]
      omega
    · have hflat : (graphemes r.string).flatten = r.string := graphemes_flatten _
      have hs2len :
          (insertBeforeGrapheme (graphemes r.string) at_ c).length =
            r.string.length + 1 := by
        unfold insertBeforeGrapheme
        rw [insertBeforeGraphemeGo_length, hflat]
        have hcnt : (graphemes r.string).length = r.string.length :=
          graphemes_solo_length _ hr
        rw [if_pos (by constructor <;> omega)]
      have hsolo2 :
          ∀ x ∈ insertBeforeGrapheme (graphemes r.string) at_ c,
            solo x = true := by
        intro x hx
        rcases insertBeforeGraphemeGo_mem c at_ _ 0 x hx with rfl | hx
        · exact hc
        · rw [hflat] at hx; exact hr x hx
      have hrec :
          (graphemes (insertBeforeGrapheme (graphemes r.string) at_ c)).length =
            r.string.length + 1 := by
        rw [graphemes_solo_length _ hsolo2, hs2len]
      simp only [Row.insert, if_neg hat]
      rw [hrec, if_pos (by omega)]
      omega
  · -- delete
    by_cases hat : at_ ≥ r.len
    · simp only [Row.delete, if_pos hat]; exact h
    · have hstr :
          ((graphemes r.string).eraseIdx at_).flatten = r.string.eraseIdx at_ := by
        rw [graphemes_solo _ hr, eraseIdx_map, flatten_map_singleton]
      have hsolo2 : ∀ x ∈ r.string.eraseIdx at_, solo x = true :=
        fun x hx => hr x (List.eraseIdx_subset _ _ hx)
      simp only [Row.delete, if_neg hat]
      rw [hstr, graphemes_solo_length _ hsolo2,
        List.length_eraseIdx_of_lt (by omega)]
      omega
  · -- split, head
    have hkept : ((graphemes r.string).take at_).flatten = r.string.take at_ := by
      rw [graphemes_solo _ hr, ← List.map_take, flatten_map_singleton]
    have hsolo2 : ∀ x ∈ r.string.take at_, solo x = true :=
      fun x hx => hr x (List.take_subset _ _ hx)
    simp only [Row.split]
    rw [hkept, graphemes_solo_length _ hsolo2]
    simp [graphemes_solo_length _ hr]
  · -- split, tail
    have htail : ((graphemes r.string).drop at_).flatten = r.string.drop at_ := by
      rw [graphemes_solo _ hr, ← List.map_drop, flatten_map_singleton]
    have hsolo2 : ∀ x ∈ r.string.drop at_, solo x = true :=
      fun x hx => hr x (List.drop_subset _ _ hx)
    simp only [Row.split]
    rw [htail, graphemes_solo_length _ hsolo2]
    simp only [List.length_take, List.length_drop,
      graphemes_solo_length _ hr]
    omega
  · -- append
    have hsolo2 : ∀ x ∈ r.string ++ other.string, solo x = true := by
      intro x hx
      rcases List.mem_append.mp hx with hx | hx
      · exact hr x hx
      · exact ho x hx
    simp only [Row.append]
    rw [graphemes_solo_length _ hsolo2, List.length_append]
    omega

/-- Witness for the amended C2 theorem at the row ab, inserting scalar 99 at
position 1, with the row c as the append argument. -/
theorem row_mutations_preserve_len_recount_witness :
    ((Row.fromStr (S "ab")).insert 1 99).len =
      (graphemes ((Row.fromStr (S "ab")).insert 1 99).string).length :=
  (row_mutations_preserve_len_recount (Row.fromStr (S "ab"))
    (Row.fromStr (S "c")) 1 99 (by decide) (by decide) (by decide) (by decide)
    (by decide)).1

/-- Claim C3: with the Rust profile (block comments enabled), highlighting
the document with rows slash-star start, middle, end star-slash, after marks
rows 0 to 2 entirely as multiline comment and tokenizes row 3 normally (all
None); after deleting the star and the slash of row 2 through
Document::delete and re-highlighting the whole document from row 0, every
grapheme of row 3 is marked as multiline comment. -/
theorem block_comment_state_propagation :
    (docComment.highlight none none).rows.map Row.highlighting =
      [List.replicate 8 HType.MultilineComment,
       List.replicate 6 HType.MultilineComment,
       List.replicate 6 HType.MultilineComment,
       List.replicate 5 HType.None] ∧
    ((((docComment.highlight none none).delete ⟨4, 2⟩).bind
        (fun d => d.delete ⟨4, 2⟩)).map
        (fun d => (d.highlight none none).rows.map Row.highlighting)) =
      some [List.replicate 8 HType.MultilineComment,
        List.replicate 6 HType.MultilineComment,
        List.replicate 4 HType.MultilineComment,
        List.replicate 5 HType.MultilineComment] := by
  decide

/-- Claim C9: with the Rust profile, whose primary keywords include for,
highlighting the row format assigns no keyword category to any grapheme (all
marks are None), while highlighting the row for x assigns the
primary-keyword category to the three graphemes of for. -/
theorem keyword_whole_word :
    ((Row.fromStr (S "format")).highlight rustOptions none false).1.highlighting =
      List.replicate 6 HType.None ∧
    ((Row.fromStr (S "for x")).highlight rustOptions none false).1.highlighting =
      [HType.PrimaryKeywords, HType.PrimaryKeywords, HType.PrimaryKeywords,
       HType.None, HType.None] := by
  decide

/-- Claim C10: Document::delete returns on its guard without touching any
state: if the document is empty, or the position's column equals the target
row's length (row_len, 0 for a missing row) and no following row exists, the
result is the unchanged document — rows, text, highlight flags and the dirty
flag included. -/
theorem delete_guard_is_noop (d : Document) (at_ : Position)
    (h : d.rows = [] ∨
      (at_.x = d.row_len at_.y ∧ d.rows.get? (at_.y + 1) = none)) :
    d.delete at_ = some d := by
  unfold Document.delete
  rw [if_pos h]

/-- Witness for the C10 theorem: deleting at column 1 of the one-row
document a (column = row length, no following row) returns it unchanged. -/
theorem delete_guard_is_noop_witness : Document.delete docA ⟨1, 0⟩ = some docA :=
  delete_guard_is_noop docA ⟨1, 0⟩ (by decide)

/-- Claim C5, counterexample: a dirty document with no file name: save
returns Ok(()) without writing anything (document.rs line 131 only acts under
if let Some(file_name)), and the dirty flag stays true afterwards, against
the claim that success implies the joined content was written and dirty is
false. -/
theorem save_no_filename_keeps_dirty :
    (docNoName.save).1 = none ∧ (docNoName.save).2.dirty = true := by
  decide

/-- Claim C5 (amended): whenever save() returns success and the document has
a file name, it has written each row's raw text joined by a single newline
with no trailing newline after the last row, and the dirty flag is false
after the call; with no file name, save succeeds as a no-op that writes
nothing and leaves the dirty flag unchanged. -/
theorem save_with_filename (d : Document) (f : Str)
    (hf : d.file_name = some f) :
    (d.save).1 = some (joinNl (d.rows.map Row.string)) ∧
      (d.save).2.dirty = false := by
  unfold Document.save
  rw [hf]
  exact ⟨rfl, rfl⟩

/-- Witness for the amended C5 theorem at the one-row document a. -/
theorem save_with_filename_witness :
    (docA.save).1 = some (joinNl (docA.rows.map Row.string)) ∧
      (docA.save).2.dirty = false :=
  save_with_filename docA rsName (by decide)

/-- Claim C1, counterexample: Document::insert with a row index beyond the
bounds of the non-empty one-row document a does not clamp or no-op: it
indexes self.rows[at.y] (document.rs line 92) out of bounds, which panics —
modelled as the none result — so the operation is not total over every
position argument. -/
theorem document_insert_oob_panics :
    Document.insert docA ⟨0, 5⟩ 98 = none := by
  decide

/-- Claim C1 (amended): the Document-level buffer operations never fail as
long as the row index of the position is within bounds (or the document is
empty, the case their guards handle; delete additionally no-ops whenever the
column is 0, even for an out-of-bounds row).  Column indices beyond the row
length are clamped or treated as no-ops by the Row operations, which are
total functions of the model for every argument.  Document::insert and
Document::delete do panic when the row index of a non-empty document is out
of bounds (and, for delete, the column is non-zero), as the counterexample
shows. -/
theorem document_edit_in_bounds_total (d : Document) (at_ : Position) (c : Nat) :
    ((d.rows = [] ∨ at_.y < d.rows.length) → (d.insert at_ c).isSome) ∧
    ((d.rows = [] ∨ at_.y < d.rows.length ∨ at_.x = 0) →
      (d.delete at_).isSome) := by
  constructor
  · rintro (hne | hlt)
    · by_cases hc : c = 10 <;>
        simp [Document.insert, Document.insert_newline, hne, hc]
    · have hne : d.rows ≠ [] := by
        intro hnil; rw [hnil] at hlt; simp at hlt
      have hrow : d.rows[at_.y]? = some d.rows[at_.y] :=
        List.getElem?_eq_getElem hlt
      by_cases hc : c = 10 <;>
        simp [Document.insert, Document.insert_newline, hne, hc, hrow]
  · intro hcase
    by_cases hguard : d.rows = [] ∨
        (at_.x = d.row_len at_.y ∧ d.rows.get? (at_.y + 1) = none)
    · unfold Document.delete
      rw [if_pos hguard]
      rfl
    · have hinr : at_.y < d.rows.length := by
        rcases hcase with hne | hlt | hx0
        · exact absurd (Or.inl hne) hguard
        · exact hlt
        · by_cases hlt : at_.y < d.rows.length
          · exact hlt
          · exfalso
            apply hguard
            have hnone : d.rows.get? at_.y = none := by
              rw [List.get?_eq_none]; omega
            have hnone2 : d.rows[at_.y]? = none := by
              rw [← List.get?_eq_getElem?]; exact hnone
            refine Or.inr ⟨?_, ?_⟩
            · simp [Document.row_len, Document.row, hnone2, hx0]
            · rw [List.get?_eq_none]; omega
      have h1 : d.rows[at_.y]? = some d.rows[at_.y] :=
        List.getElem?_eq_getElem hinr
      unfold Document.delete
      rw [if_neg hguard]
      by_cases hmerge : at_.x = d.row_len at_.y ∧ at_.y + 1 < d.rows.length
      · have h2 : d.rows[at_.y + 1]? = some d.rows[at_.y + 1] :=
          List.getElem?_eq_getElem hmerge.2
        simp [hmerge, h1, h2]
      · simp [hmerge, h1]

/-- Witness for the amended C1 theorem: inserting b at row 0 of the one-row
document a and deleting at row 0 both succeed. -/
theorem document_edit_in_bounds_total_witness :
    (docA.insert ⟨0, 0⟩ 98).isSome ∧ (docA.delete ⟨0, 0⟩).isSome :=
  ⟨(document_edit_in_bounds_total docA ⟨0, 0⟩ 98).1 (Or.inr (by decide)),
   (document_edit_in_bounds_total docA ⟨0, 0⟩ 98).2 (Or.inr (Or.inl (by decide)))⟩

/-! Lemmas about the highlight row loop of Document::highlight. -/

theorem processRows_length (opts : HighlightingOptions) (word : Option Str) :
    ∀ (swc : Bool) (rs : List Row),
      (processRows opts word swc rs).1.length = rs.length := by
  intro swc rs
  induction rs generalizing swc with
  | nil => simp [processRows]
  | cons r rest ih => simp [processRows, ih]

theorem processRows_append (opts : HighlightingOptions) (word : Option Str) :
    ∀ (xs ys : List Row) (swc : Bool),
      (processRows opts word swc (xs ++ ys)).1 =
        (processRows opts word swc xs).1 ++
          (processRows opts word (processRows opts word swc xs).2 ys).1 := by
  intro xs
  induction xs with
  | nil => intro ys swc; simp [processRows]
  | cons x rest ih => intro ys swc; simp [processRows, ih]

/-- Claim C4, counterexample: on the fresh three-row document a, b, c,
Document::highlight(None, Some(0)) slices rows[..0+1], so it recomputes only
row 0; row h + 1 = 1 is left untouched — not marked highlighted and with
empty marks — against the claim that rows up to and including h + 1 are
recomputed (recomputing a row sets is_highlighted and fills its marks). -/
theorem highlight_hint_skips_next_row :
    ((docABC.highlight none (some 0)).rows.getD 1 Row.default).is_highlighted
        = false ∧
      ((docABC.highlight none (some 0)).rows.getD 1 Row.default).highlighting
        = [] := by
  decide

/-- Claim C4 (amended): for every document and hint h,
Document.highlight(word, Some(h)) recomputes highlighting exactly for rows 0
up to and including row h — clamped to the last row, and hint absent means
all rows — carrying the block-comment state row to row: every row beyond
index h keeps its previous value, and on the recomputed prefix the result
agrees with the full hint-free recomputation. -/
theorem highlight_hint_bound (d : Document) (word : Option Str) (h : Nat) :
    (d.highlight word (some h)).rows.drop (min (h + 1) d.rows.length) =
        d.rows.drop (min (h + 1) d.rows.length) ∧
      (d.highlight word (some h)).rows.take (min (h + 1) d.rows.length) =
        (d.highlight word none).rows.take (min (h + 1) d.rows.length) := by
  have huntil : (if h + 1 < d.rows.length then h + 1 else d.rows.length) =
      min (h + 1) d.rows.length := by
    split <;> omega
  have hlen1 :
      (processRows d.file_type.hl_opts word false
          (d.rows.take (min (h + 1) d.rows.length))).1.length =
        min (h + 1) d.rows.length := by
    rw [processRows_length, List.length_take]
    omega
  constructor
  · simp only [Document.highlight, huntil]
    exact List.drop_left' hlen1
  · have hfull : (d.highlight word none).rows =
        (processRows d.file_type.hl_opts word false d.rows).1 := by
      simp [Document.highlight]
    have hsplit : (processRows d.file_type.hl_opts word false d.rows).1 =
        (processRows d.file_type.hl_opts word false
            (d.rows.take (min (h + 1) d.rows.length))).1 ++
          (processRows d.file_type.hl_opts word
              (processRows d.file_type.hl_opts word false
                (d.rows.take (min (h + 1) d.rows.length))).2
              (d.rows.drop (min (h + 1) d.rows.length))).1 := by
      conv_lhs =>
        rw [← List.take_append_drop (min (h + 1) d.rows.length) d.rows]
      rw [processRows_append]
    rw [hfull, hsplit, List.take_left' hlen1]
    simp only [Document.highlight, huntil]
    rw [List.take_left' hlen1]

/-! Lemmas about line splitting and joining, for the open and save model. -/

theorem splitNl_ne_nil (s : Str) : splitNl s ≠ [] := by
  cases s with
  | nil => simp [splitNl]
  | cons c t =>
      simp only [splitNl]
      split
      · simp
      · split <;> simp

theorem joinNl_splitNl (s : Str) : joinNl (splitNl s) = s := by
  induction s with
  | nil => rfl
  | cons c t ih =>
      simp only [splitNl]
      by_cases hc : c = 10
      · rw [if_pos hc]
        cases h : splitNl t with
        | nil => exact absurd h (splitNl_ne_nil t)
        | cons h2 r2 =>
            show joinNl ([] :: h2 :: r2) = c :: t
            have : joinNl (h2 :: r2) = t := by rw [← h, ih]
            simp [joinNl, this, hc]
      · rw [if_neg hc]
        cases h : splitNl t with
        | nil => exact absurd h (splitNl_ne_nil t)
        | cons h2 r2 =>
            have ht : joinNl (h2 :: r2) = t := by rw [← h, ih]
            cases r2 with
            | nil => simp [joinNl] at ht ⊢; exact ht
            | cons r3 r4 =>
                show joinNl ((c :: h2) :: r3 :: r4) = c :: t
                simp only [joinNl] at ht ⊢
                rw [← ht]
                simp

theorem mem_splitNl (s : Str) : ∀ l ∈ splitNl s, ∀ x ∈ l, x ∈ s := by
  induction s with
  | nil =>
      intro l hl x hx
      simp [splitNl] at hl
      subst hl
      simp at hx
  | cons c t ih =>
      intro l hl x hx
      simp only [splitNl] at hl
      split at hl
      · rcases List.mem_cons.mp hl with rfl | hl
        · simp at hx
        · exact List.mem_cons_of_mem _ (ih l hl x hx)
      · cases hsp : splitNl t with
        | nil => exact absurd hsp (splitNl_ne_nil t)
        | cons h2 r =>
            rw [hsp] at hl
            rcases List.mem_cons.mp hl with rfl | hl
            · rcases List.mem_cons.mp hx with rfl | hx
              · simp
              · exact List.mem_cons_of_mem _
                  (ih h2 (by rw [hsp]; simp) x hx)
            · exact List.mem_cons_of_mem _
                (ih l (by rw [hsp]; exact List.mem_cons_of_mem _ hl) x hx)

theorem splitNl_last_empty (s : Str) (h10 : s.getLast? = some 10) :
    ∃ ps, splitNl s = ps ++ [[]] := by
  induction s with
  | nil => simp at h10
  | cons c t ih =>
      cases t with
      | nil =>
          simp only [List.getLast?_singleton, Option.some.injEq] at h10
          subst h10
          exact ⟨[[]], by decide⟩
      | cons d t2 =>
          rw [List.getLast?_cons_cons] at h10
          obtain ⟨ps, hps⟩ := ih h10
          by_cases hc : c = 10
          · subst hc
            refine ⟨[] :: ps, ?_⟩
            have hstep : splitNl (10 :: d :: t2) = [] :: splitNl (d :: t2) := by
              simp [splitNl]
            rw [hstep, hps]
            rfl
          · cases hps2 : ps with
            | nil =>
                exfalso
                have hj := joinNl_splitNl (d :: t2)
                rw [hps, hps2] at hj
                simp [joinNl] at hj
            | cons h2 ps2 =>
                refine ⟨(c :: h2) :: ps2, ?_⟩
                rw [hps2] at hps
                have hstep : splitNl (c :: d :: t2) =
                    match splitNl (d :: t2) with
                    | [] => [[c]]
                    | h :: r => (c :: h) :: r := by
                  simp only [splitNl, if_neg hc]
                rw [hstep, hps]
                rfl

theorem stripCR_of_not_mem (l : Str) (h : 13 ∉ l) : stripCR l = l := by
  unfold stripCR
  cases hl : l.getLast? with
  | none => simp
  | some z =>
      by_cases hz : z = 13
      · exfalso
        subst hz
        obtain ⟨hne, hzz⟩ :=
          List.mem_getLast?_eq_getLast (l := l) (x := 13)
            (by simp [Option.mem_def, hl])
        exact h (hzz ▸ List.getLast_mem hne)
      · simp [hz]

theorem map_stripCR_id (ls : List Str) (h : ∀ l ∈ ls, 13 ∉ l) :
    ls.map stripCR = ls := by
  induction ls with
  | nil => rfl
  | cons l rest ih =>
      simp only [List.map_cons]
      rw [stripCR_of_not_mem l (h l (by simp)), ih (fun x hx => h x (List.mem_cons_of_mem _ hx))]

theorem joinNl_rustLines (s : Str) (hcr : 13 ∉ s) :
    joinNl (rustLines s ++ (if s.getLast? = some 10 then [[]] else [])) = s := by
  by_cases hnil : s = []
  · subst hnil
    simp [rustLines, joinNl]
  · have hsub : ∀ l ∈ (splitNl s).dropLast, 13 ∉ l := by
      intro l hl hx
      exact hcr (mem_splitNl s l (List.dropLast_subset _ hl) 13 hx)
    by_cases h10 : s.getLast? = some 10
    · obtain ⟨ps, hps⟩ := splitNl_last_empty s h10
      simp only [rustLines, if_neg hnil, if_pos h10]
      rw [map_stripCR_id _ hsub, hps, List.dropLast_concat, ← hps]
      exact joinNl_splitNl s
    · simp only [rustLines, if_neg hnil, if_neg h10]
      rw [map_stripCR_id _ hsub]
      have hlast := List.getLast?_eq_getLast_of_ne_nil (splitNl_ne_nil s)
      rw [hlast]
      simp only [Option.getD_some, List.append_nil]
      rw [List.dropLast_append_getLast (splitNl_ne_nil s)]
      exact joinNl_splitNl s

/-- Claim C6: for file content whose line terminator is the newline (no
carriage return), open splits the content into one row per line, appends
exactly one extra empty row iff the content ends with a terminator, and sets
dirty to false; consequently open followed immediately by save writes back
exactly the original content, a trailing final blank line included. -/
theorem open_splits_and_round_trips (filename contents : Str)
    (hcr : 13 ∉ contents) :
    (Document.openDoc filename contents).rows.map Row.string =
        rustLines contents ++
          (if contents.getLast? = some 10 then [[]] else []) ∧
      (Document.openDoc filename contents).rows.length =
        (rustLines contents).length +
          (if contents.getLast? = some 10 then 1 else 0) ∧
      (Document.openDoc filename contents).dirty = false ∧
      ((Document.openDoc filename contents).save).1 = some contents := by
  have hmap : (Document.openDoc filename contents).rows.map Row.string =
      rustLines contents ++
        (if contents.getLast? = some 10 then [[]] else []) := by
    simp only [Document.openDoc, List.map_map]
    have : Row.string ∘ Row.fromStr = id := by
      funext l
      rfl
    rw [this, List.map_id]
  refine ⟨hmap, ?_, rfl, ?_⟩
  · have := congrArg List.length hmap
    simp only [List.length_map, List.length_append] at this
    rw [this]
    split <;> simp
  · show some (joinNl ((Document.openDoc filename contents).rows.map Row.string)) =
      some contents
    rw [hmap, joinNl_rustLines contents hcr]

/-- Witness for the C6 theorem at the content ab newline newline: the opened
document has rows ab, empty, empty and saving writes the content back. -/
theorem open_splits_and_round_trips_witness :
    ((Document.openDoc rsName (S "ab\n\n")).save).1 = some (S "ab\n\n") :=
  (open_splits_and_round_trips rsName (S "ab\n\n") (by decide)).2.2.2

/-! Claim C7: the render window and its emission, compared against a
definition written from the claim's words. -/

/-- Modelled from the claim for comparison with Row::render: walk the
grapheme indices of the window [i, i + k), emitting for each grapheme its
first scalar (tab replaced by a single space), preceded by a color item
exactly when the category at that index (None beyond the marks array, and
None throughout for a never-highlighted row, whose marks array is empty)
differs from the category of the previously emitted grapheme (None at the
start of the window). -/
def renderSpecGo (hl : List HType) (gs : List Str) :
    Nat → Nat → HType → List RItem
  | _, 0, _ => []
  | i, k + 1, prev =>
      match (gs.getD i []).head? with
      | none => renderSpecGo hl gs (i + 1) k prev
      | some c =>
          let t := hl.getD i HType.None
          (if t = prev then [] else [RItem.color t]) ++
            RItem.chr (if c = 9 then 32 else c) :: renderSpecGo hl gs (i + 1) k t

/-- The claim's reading of render: the window is the grapheme range
[window_start, window_end) clamped to the row's grapheme-count bounds, and a
final reset item closes the string. -/
def renderSpec (r : Row) (ws we : Nat) : List RItem :=
  let n := (graphemes r.string).length
  let e := min we n
  let s := min ws e
  renderSpecGo r.highlighting (graphemes r.string) s (e - s) HType.None ++
    [RItem.reset]

theorem enumFrom_take (l : List Str) :
    ∀ (n k : Nat), (l.enumFrom n).take k = (l.take k).enumFrom n := by
  induction l with
  | nil => intro n k; simp
  | cons g rest ih =>
      intro n k
      cases k with
      | zero => simp
      | succ k2 => simp [List.enumFrom, ih (n + 1) k2]

theorem enumFrom_drop (l : List Str) :
    ∀ (n k : Nat), (l.enumFrom n).drop k = (l.drop k).enumFrom (n + k) := by
  induction l with
  | nil => intro n k; simp
  | cons g rest ih =>
      intro n k
      cases k with
      | zero => simp
      | succ k2 =>
          simp only [List.enumFrom, List.drop_succ_cons]
          rw [ih (n + 1) k2]
          congr 1
          omega

theorem renderLoop_eq_specGo (hl : List HType) (gs : List Str) :
    ∀ (k i : Nat) (prev : HType),
      renderLoop hl (((gs.drop i).take k).enumFrom i) prev =
        renderSpecGo hl gs i (min k (gs.length - i)) prev := by
  intro k
  induction k with
  | zero => intro i prev; simp [renderLoop, renderSpecGo]
  | succ k ih =>
      intro i prev
      cases hd : gs.drop i with
      | nil =>
          have h0 : gs.length - i = 0 := by
            have := List.drop_eq_nil_iff.mp hd
            omega
          rw [h0]
          simp [renderLoop, renderSpecGo]
      | cons g rest =>
          have hrest : gs.drop (i + 1) = rest := by
            have hdd : (gs.drop i).drop 1 = gs.drop (i + 1) :=
              List.drop_drop 1 i gs
            rw [← hdd, hd]
            rfl
          have hgetD : gs.getD i [] = g := by
            have h1 : gs[i]? = some g := by
              rw [← List.head?_drop, hd]
              rfl
            rw [List.getD_eq_getElem?_getD, h1]
            rfl
          have hlen : i < gs.length := by
            by_contra hcon
            rw [List.drop_eq_nil_iff.mpr (by omega)] at hd
            exact absurd hd (by simp)
          have hmin : min (k + 1) (gs.length - i) =
              min k (gs.length - (i + 1)) + 1 := by omega
          rw [hmin]
          simp only [List.take_succ_cons, List.enumFrom, renderLoop,
            renderSpecGo, hgetD]
          cases g.head? with
          | none =>
              rw [← hrest] at *
              exact ih (i + 1) prev
          | some c =>
              rw [← hrest]
              rw [ih (i + 1) (hl.getD i HType.None)]

/-- Claim C7 (amended): for every row and window, Row::render produces
exactly — ignoring nothing, as an item-level identity — the claim's display
string over the grapheme range [window_start, window_end) clamped to the
row's grapheme-count bounds, except that each grapheme contributes only its
FIRST scalar (with a tab first scalar replaced by a single space), further
scalars of a multi-scalar cluster being dropped; color transitions are
emitted exactly at boundaries where the highlight category changes from the
previously emitted grapheme (initially None; positions beyond the marks
array, or the empty marks array of an unhighlighted row, read as None), and
a final reset closes the string.  (The source clamps the end bound by the
byte length rather than the grapheme count, which emits the same items.) -/
theorem render_eq_renderSpec (r : Row) (ws we : Nat) :
    r.render ws we = renderSpec r ws we := by
  simp only [Row.render, renderSpec]
  have hnL : (graphemes r.string).length ≤ utf8Len r.string :=
    graphemes_length_le_utf8Len r.string
  have henum : (graphemes r.string).enum = (graphemes r.string).enumFrom 0 :=
    rfl
  rw [henum, enumFrom_drop, enumFrom_take, Nat.zero_add,
    renderLoop_eq_specGo r.highlighting (graphemes r.string)]
  by_cases hcase : ws ≤ min we (graphemes r.string).length
  · have h1 : min ws (min we (utf8Len r.string)) =
        min ws (min we (graphemes r.string).length) := by omega
    have h2 : min
        (min we (utf8Len r.string) -
          min ws (min we (graphemes r.string).length))
        ((graphemes r.string).length -
          min ws (min we (graphemes r.string).length)) =
        min we (graphemes r.string).length -
          min ws (min we (graphemes r.string).length) := by omega
    rw [h1, h2]
  · have h1 : min
        (min we (utf8Len r.string) - min ws (min we (utf8Len r.string)))
        ((graphemes r.string).length -
          min ws (min we (utf8Len r.string))) = 0 := by omega
    have h2 : min we (graphemes r.string).length -
        min ws (min we (graphemes r.string).length) = 0 := by omega
    rw [h1, h2]
    rfl

/-- Claim C7, counterexample: the row whose text is e followed by the
combining acute accent forms one grapheme of two scalars; render(0, 2)
emits only the first scalar — the display characters are e alone, while the
text of the (clamped) grapheme range is the full two-scalar cluster, so the
rendered text is not exactly the text of the range. -/
theorem render_drops_trailing_scalars :
    renderChars ((Row.fromStr [101, 769]).render 0 2) = [101] ∧
      (((graphemes (Row.fromStr [101, 769]).string).drop 0).take 2).flatten =
        [101, 769] := by
  decide

/-! Claim C8: soundness of backward find. -/

theorem drop_append_ge (xs ys : Str) :
    ∀ t, xs.length ≤ t → (xs ++ ys).drop t = ys.drop (t - xs.length) := by
  induction xs with
  | nil => intro t _; simp
  | cons x rest ih =>
      intro t ht
      cases t with
      | zero => simp at ht
      | succ t2 =>
          simp only [List.cons_append, List.drop_succ_cons, List.length_cons]
          rw [ih t2 (by simpa using ht)]
          congr 1
          omega

theorem prefix_flatten_take (l : List Str) (k : Nat) :
    (l.take k).flatten <+: l.flatten :=
  ⟨(l.drop k).flatten, by rw [← List.flatten_append, List.take_append_drop]⟩

theorem strRfind_sound (s q : Str) (off : Nat)
    (h : strRfind s q = some off) : q <+: s.drop off := by
  have hmem : off ∈ occurrenceList s q := by
    obtain ⟨hne, hzz⟩ :=
      List.mem_getLast?_eq_getLast (l := occurrenceList s q) (x := off)
        (by simp [Option.mem_def, ← h, strRfind])
    exact hzz ▸ List.getLast_mem hne
  have hp := (List.mem_filter.mp hmem).2
  exact List.isPrefixOf_iff_prefix.mp hp

theorem graphemeIndexOfOffset_lt (l : List Str) :
    ∀ t k, graphemeIndexOfOffset l t = some k → k < l.length := by
  induction l with
  | nil => intro t k h; simp [graphemeIndexOfOffset] at h
  | cons g rest ih =>
      intro t k h
      simp only [graphemeIndexOfOffset] at h
      split at h
      · simp only [Option.some.injEq] at h
        simp only [List.length_cons]
        omega
      · split at h
        · simp at h
        · cases hrec : graphemeIndexOfOffset rest (t - g.length) with
          | none => rw [hrec] at h; simp at h
          | some k2 =>
              rw [hrec] at h
              simp only [Option.map_some', Option.some.injEq] at h
              have := ih (t - g.length) k2 hrec
              simp only [List.length_cons]
              omega

theorem graphemeIndexOfOffset_drop (l : List Str) :
    ∀ t k, graphemeIndexOfOffset l t = some k →
      l.flatten.drop t = (l.drop k).flatten := by
  induction l with
  | nil => intro t k h; simp [graphemeIndexOfOffset] at h
  | cons g rest ih =>
      intro t k h
      simp only [graphemeIndexOfOffset] at h
      split at h
      · rename_i ht
        simp only [Option.some.injEq] at h
        subst ht
        rw [← h]
        simp
      · split at h
        · simp at h
        · rename_i ht hlt
          cases hrec : graphemeIndexOfOffset rest (t - g.length) with
          | none => rw [hrec] at h; simp at h
          | some k2 =>
              rw [hrec] at h
              simp only [Option.map_some', Option.some.injEq] at h
              subst h
              rw [List.flatten_cons, drop_append_ge g rest.flatten t (by omega),
                ih (t - g.length) k2 hrec]
              simp

theorem row_find_backward_sound (r : Row) (q : Str) (a x : Nat)
    (h : Row.find r q a .Backward = some x) :
    x < a ∧ q <+: ((graphemes r.string).drop x).flatten := by
  by_cases hq : q = []
  · unfold Row.find at h
    rw [if_pos hq] at h
    exact absurd h (by simp)
  · have hdir : ¬ (SearchDirection.Backward = SearchDirection.Forward) := by
      decide
    simp only [Row.find, if_neg hq, if_neg hdir, Nat.sub_zero,
      List.drop_zero] at h
    split at h
    · rename_i off hrf
      split at h
      · rename_i gi hgi
        simp only [Option.some.injEq] at h
        rw [Nat.zero_add] at h
        subst h
        have hlt := graphemeIndexOfOffset_lt ((graphemes r.string).take a)
          off gi hgi
        have hdrop := graphemeIndexOfOffset_drop ((graphemes r.string).take a)
          off gi hgi
        have hpre := strRfind_sound ((graphemes r.string).take a).flatten q
          off hrf
        rw [hdrop] at hpre
        have hsublen : ((graphemes r.string).take a).length ≤ a := by
          simp only [List.length_take]
          omega
        constructor
        · omega
        · have hsub2 : ((graphemes r.string).take a).drop gi =
              ((graphemes r.string).drop gi).take (a - gi) :=
            List.drop_take a gi (graphemes r.string)
          rw [hsub2] at hpre
          exact hpre.trans (prefix_flatten_take _ _)
      · exact absurd h (by simp)
    · exact absurd h (by simp)

theorem docFindLoop_nil_query (rows : List Row) (dir : SearchDirection) :
    ∀ n pos, docFindLoop rows [] dir n pos = none := by
  intro n
  induction n with
  | zero => intro pos; simp [docFindLoop]
  | succ n ih =>
      intro pos
      simp only [docFindLoop]
      split
      · rename_i row hrow
        have hfind : Row.find row [] pos.x dir = none := by
          unfold Row.find
          rw [if_pos rfl]
        rw [hfind]
        show (if dir = SearchDirection.Forward then
            docFindLoop rows [] dir n ⟨0, pos.y + 1⟩
          else
            docFindLoop rows [] dir n
              ⟨(rows.getD (pos.y - 1) Row.default).len, pos.y - 1⟩) = none
        split
        · exact ih _
        · exact ih _
      · rfl

theorem docFindLoop_backward_sound (rows : List Row) (q : Str) (mx my : Nat) :
    ∀ (n : Nat) (pos p : Position),
      n ≤ pos.y + 1 → pos.y ≤ my → (pos.y = my → pos.x ≤ mx) →
      docFindLoop rows q .Backward n pos = some p →
      (p.y < my ∨ (p.y = my ∧ p.x < mx)) ∧
        ∃ r, rows.get? p.y = some r ∧
          q <+: ((graphemes r.string).drop p.x).flatten := by
  intro n
  induction n with
  | zero => intro pos p _ _ _ hp; simp [docFindLoop] at hp
  | succ n ih =>
      intro pos p hn hy hxy hp
      simp only [docFindLoop] at hp
      split at hp
      · rename_i row hrow
        split at hp
        · rename_i x hfind
          simp only [Option.some.injEq] at hp
          obtain ⟨hxlt, hocc⟩ := row_find_backward_sound row q pos.x x hfind
          subst hp
          refine ⟨?_, ⟨row, hrow, hocc⟩⟩
          by_cases hym : pos.y = my
          · exact Or.inr ⟨hym, lt_of_lt_of_le hxlt (hxy hym)⟩
          · exact Or.inl (Nat.lt_of_le_of_ne hy hym)
        · rename_i hfind
          rw [if_neg (by decide :
            ¬ (SearchDirection.Backward = SearchDirection.Forward))] at hp
          cases n with
          | zero => simp [docFindLoop] at hp
          | succ n2 =>
              have hy1 : 1 ≤ pos.y := by omega
              refine ih ⟨(rows.getD (pos.y - 1) Row.default).len,
                  pos.y - 1⟩ p ?_ ?_ ?_ hp
              · show n2 + 1 ≤ (pos.y - 1) + 1
                omega
              · show pos.y - 1 ≤ my
                omega
              · intro hh
                exfalso
                have h2 : pos.y - 1 = my := hh
                omega
      · rename_i hrow
        exact absurd hp (by simp)

/-- Claim C8, counterexample: in the one-row document ab, find(b, (0,0),
Forward) returns column 1 of row 0, but find(b, (1,0), Backward) searches
row 0 only over the grapheme range [0, 1) — the returned match itself is
excluded, since the backward range ends at the given column — finds nothing
in any row, and returns None rather than some position ≤ (1,0). -/
theorem find_backward_misses_match :
    docAB.find (S "b") ⟨0, 0⟩ .Forward = some ⟨1, 0⟩ ∧
      docAB.find (S "b") ⟨1, 0⟩ .Backward = none := by
  decide

/-- Claim C8 (amended): if Document.find(q, p, Forward) returns a position
m, then Document.find(q, m, Backward) either returns None — possible
whenever m is the earliest occurrence, because the backward search from m
excludes the match at m itself — or returns a position strictly earlier than
m (an earlier row, or the same row at a smaller column) at which the text is
an occurrence of q. -/
theorem find_forward_backward (d : Document) (q : Str) (p m : Position)
    (hf : d.find q p .Forward = some m) :
    d.find q m .Backward = none ∨
      ∃ p2, d.find q m .Backward = some p2 ∧
        (p2.y < m.y ∨ (p2.y = m.y ∧ p2.x < m.x)) ∧
        ∃ r, d.rows.get? p2.y = some r ∧
          q <+: ((graphemes r.string).drop p2.x).flatten := by
  cases hb : d.find q m .Backward with
  | none => exact Or.inl rfl
  | some p2 =>
      right
      refine ⟨p2, rfl, ?_⟩
      unfold Document.find at hb
      rw [if_neg (by decide : ¬ (SearchDirection.Backward = .Forward)),
        if_neg (by decide : ¬ (SearchDirection.Backward = .Forward))] at hb
      have hs := docFindLoop_backward_sound d.rows q m.x m.y (m.y + 1 - 0) m
        p2 (by omega) (le_refl _) (fun _ => le_refl _) hb
      exact ⟨hs.1, hs.2⟩

/-- Witness for the amended C8 theorem at the one-row document ab with
query b: forward find from (0,0) returns (1,0), and the conclusion holds
with the backward find returning None. -/
theorem find_forward_backward_witness :
    docAB.find (S "b") ⟨1, 0⟩ .Backward = none ∨
      ∃ p2, docAB.find (S "b") ⟨1, 0⟩ .Backward = some p2 ∧
        (p2.y < (⟨1, 0⟩ : Position).y ∨
          (p2.y = (⟨1, 0⟩ : Position).y ∧ p2.x < (⟨1, 0⟩ : Position).x)) ∧
        ∃ r, docAB.rows.get? p2.y = some r ∧
          (S "b") <+: ((graphemes r.string).drop p2.x).flatten :=
  find_forward_backward docAB (S "b") ⟨0, 0⟩ ⟨1, 0⟩ (by decide)

end Hecto